import Mathlib

/-!
# Verification of the factorystatsd forwarder

A shallow embedding of `forwarder.py`: the metric-name normalizer, the
signal aggregator (`statsd_gauges_from_samples_data`), the dogstatsd line
formatter, the packet batcher (`statsd_packets_from_lines`), and the two
stateful slices of `main` (the game-data cache step and the sample-file
ingestion step), together with theorems settling the specification claims.

Modelling notes:

* Python `dict` (insertion-ordered, unique keys) is modelled as an
  association list `List (String × Gauge)` in insertion order; `dict.get`
  is `lookupKey`, insertion appends at the end, and the in-place mutation
  `gauge.n += count` updates the entry at that key.
* Packets are modelled as `String`s; the Python code UTF-8-encodes each
  flushed buffer (`buf.encode("utf-8")`), and that encoding is injective,
  so packet-level statements are stated on the pre-encoding strings.  The
  size check in the source compares `len(buf)` (code points), matching
  `String.length`.
* Signal counts are Python `int`s, modelled as `Int`.
* `max_size` is modelled as `Nat` (the deployed value is the literal 1432).
* Character classes (`str.isalpha`, `str.isalnum`, `str.lower`) are
  modelled by the corresponding `Char` functions at the ASCII level.
  Python string slicing, mapping and splitting act on code points, so they
  are modelled on `String.data` (the character list).
* Python raises `IndexError` on `name[0]` for an empty name;
  `normalize_metric_name` is only reached for non-empty names (the
  aggregator skips entities with an empty name first), and every theorem
  about it carries a non-emptiness hypothesis.  The total model uses
  `String.front`, whose value on `""` is outside all theorems here.
* File modification times (`os.path.getmtime`) are used only for order
  comparison; they are modelled as `Int` timestamps.
-/

/-- One circuit signal identifier: `{"type": ..., "name": ...}`. -/
structure Signal where
  type : String
  name : String
deriving DecidableEq

/-- One sampled signal with its count: `{"signal": ..., "count": ...}`. -/
structure CircuitSignal where
  signal : Signal
  count : Int
deriving DecidableEq

/-- The `settings` block of one entity in the samples file. -/
structure GameEntitySettings where
  name : String
  tags : String
  absent_signals : String
deriving DecidableEq

/-- One entity record of the samples file.  Missing `red_signals` /
`green_signals` keys in the JSON are read with `entity.get(..., [])`, so
they are modelled as (possibly empty) lists. -/
structure GameEntity where
  settings : GameEntitySettings
  red_signals : List CircuitSignal
  green_signals : List CircuitSignal
deriving DecidableEq

/-- The samples file: `{"entities": [...]}`. -/
structure SamplesData where
  entities : List GameEntity
deriving DecidableEq

/-- The reference ("game data") file. -/
structure GameData where
  virtual_signal_names : List String
  item_names : List String
  fluid_names : List String
deriving DecidableEq

/-- `Tag(name, value=None)` from the source. -/
structure Tag where
  name : String
  value : Option String
deriving DecidableEq

/-- `Gauge(name, n, tags)` from the source. -/
structure Gauge where
  name : String
  n : Int
  tags : List Tag
deriving DecidableEq

/-- The per-character replacement of the source's list comprehension:
`"_" if not c.isalnum() and c != "_" and c != "." else c`. -/
def replaceChar (c : Char) : Char :=
  if ¬ c.isAlphanum ∧ c ≠ '_' ∧ c ≠ '.' then '_' else c

/-- The per-character replacement as the specification words it: a
character that is alphanumeric, underscore or period is kept, every other
character becomes an underscore. -/
def replaceCharSpec (c : Char) : Char :=
  if c.isAlphanum ∨ c = '_' ∨ c = '.' then c else '_'

/-- `normalize_metric_name` from the source: prepend `"x"` when the first
character is not alphabetic, lowercase, replace every character that is
neither alphanumeric nor `_` nor `.` by `_`, truncate to 200 characters. -/
def normalize_metric_name (name : String) : String :=
  let name := if ¬ name.front.isAlpha then "x" ++ name else name
  let name := String.mk (name.data.map Char.toLower)
  let name := String.mk (name.data.map replaceChar)
  String.mk (name.data.take 200)

/-- The normalization pipeline exactly as the specification words it: the
four steps in the spec's order, with "the first character" read off the
character list of the (non-empty) name.  Used to state the refinement
claim about `normalize_metric_name`. -/
def normalizeSpec (name : String) : String :=
  let step1 := match name.data with
    | [] => name
    | c :: _ => if c.isAlpha then name else "x" ++ name
  let step2 := String.mk (step1.data.map Char.toLower)
  let step3 := String.mk (step2.data.map replaceCharSpec)
  String.mk (step3.data.take 200)

/-- Python `str.split(sep)` for a one-character separator, on the
character list: every occurrence of `sep` ends a group, and the empty
string yields the single group `[[]]` (`"".split(",") == [""]`). -/
def splitChar (sep : Char) : List Char → List (List Char)
  | [] => [[]]
  | c :: rest =>
    if c = sep then [] :: splitChar sep rest
    else
      match splitChar sep rest with
      | [] => [[c]]
      | g :: gs => (c :: g) :: gs

/-- Python `str.split(sep, 1)`: split at the first occurrence of `sep`
only; `none` when `sep` does not occur. -/
def splitOnce (sep : Char) : List Char → Option (List Char × List Char)
  | [] => none
  | c :: rest =>
    if c = sep then some ([], rest)
    else (splitOnce sep rest).map fun p => (c :: p.1, p.2)

/-- `Tag(*kv.split("=", 1))`: split on the first `=` only; an item without
`=` becomes a value-less tag. -/
def Tag.ofKV (kv : String) : Tag :=
  match splitOnce '=' kv.data with
  | none => ⟨kv, none⟩
  | some (k, v) => ⟨String.mk k, some (String.mk v)⟩

/-- `[Tag(*kv.split("=", 1)) for kv in settings["tags"].split(",")]`. -/
def parseTags (s : String) : List Tag :=
  (splitChar ',' s.data).map fun kv => Tag.ofKV (String.mk kv)

/-- `signal["signal"]["type"] + "." + signal["signal"]["name"]`. -/
def signalTypeName (s : Signal) : String :=
  s.type ++ "." ++ s.name

/-- The dictionary key `name + "|" + signal_type_name`. -/
def gaugeKey (nm : String) (s : Signal) : String :=
  nm ++ "|" ++ signalTypeName s

/-- The synthesized trailing tags `[Tag("signal_type", t), Tag("signal_name", n)]`. -/
def synthTags (s : Signal) : List Tag :=
  [⟨"signal_type", some s.type⟩, ⟨"signal_name", some s.name⟩]

/-- `gauges.get(key, None)` on the insertion-ordered association list. -/
def lookupKey (m : List (String × Gauge)) (k : String) : Option Gauge :=
  match m with
  | [] => none
  | p :: rest => if p.1 = k then some p.2 else lookupKey rest k

/-- One iteration of the signal loop of `statsd_gauges_from_samples_data`:
create a gauge for an unseen key, otherwise `gauge.n += signal["count"]`. -/
def addSignal (nm : String) (tags0 : List Tag)
    (m : List (String × Gauge)) (cs : CircuitSignal) : List (String × Gauge) :=
  let key := gaugeKey nm cs.signal
  match lookupKey m key with
  | none => m ++ [(key, ⟨nm, cs.count, tags0 ++ synthTags cs.signal⟩)]
  | some _ => m.map fun p => if p.1 = key then (p.1, { p.2 with n := p.2.n + cs.count }) else p

/-- One iteration of the `treat-as-0` loop: insert a zero gauge when the
key is not yet present. -/
def addAbsent (nm : String) (tags0 : List Tag) (ty : String)
    (m : List (String × Gauge)) (sn : String) : List (String × Gauge) :=
  let key := gaugeKey nm ⟨ty, sn⟩
  match lookupKey m key with
  | none => m ++ [(key, ⟨nm, 0, tags0 ++ synthTags ⟨ty, sn⟩⟩)]
  | some _ => m

/-- The per-entity body of `statsd_gauges_from_samples_data`: the `gauges`
dictionary after both loops, in insertion order. -/
def entityGauges (gd : GameData) (e : GameEntity) : List (String × Gauge) :=
  let nm := normalize_metric_name e.settings.name
  let tags0 := parseTags e.settings.tags
  let m := (e.red_signals ++ e.green_signals).foldl (addSignal nm tags0) []
  if e.settings.absent_signals = "treat-as-0" then
    let m := gd.virtual_signal_names.foldl (addAbsent nm tags0 "virtual") m
    let m := gd.item_names.foldl (addAbsent nm tags0 "item") m
    gd.fluid_names.foldl (addAbsent nm tags0 "fluid") m
  else m

/-- `statsd_gauges_from_samples_data` from the source: per entity, skip
empty names, then yield the per-entity gauges in insertion order. -/
def statsd_gauges_from_samples_data (gd : GameData) (sd : SamplesData) : List Gauge :=
  sd.entities.foldr
    (fun e acc =>
      (if e.settings.name = "" then [] else (entityGauges gd e).map Prod.snd) ++ acc)
    []

/-- A tag as rendered by `dogstatsd_line_formatter`: `key:value`, or the
bare name for a value-less tag. -/
def tagDog (t : Tag) : String :=
  match t.value with
  | none => t.name
  | some v => t.name ++ ":" ++ v

/-- `dogstatsd_line_formatter` from the source.  Note the `|#` suffix is
appended unconditionally by the f-string. -/
def dogstatsd_line_formatter (g : Gauge) : String :=
  let tags_str := String.intercalate "," (g.tags.map tagDog)
  g.name ++ ":" ++ toString g.n ++ "|g|#" ++ tags_str

/-- The buffer-append step of `statsd_packets_from_lines`:
`if buf: buf += "\n"` then `buf += line`. -/
def bufAppend (b line : String) : String :=
  if b = "" then line else b ++ "\n" ++ line

/-- The loop of `statsd_packets_from_lines`, with `buf` explicit: flush
(and restart from the bare line) when `len(buf) + 1 + len(line)` would
exceed `max_size`; after the loop flush a non-empty remainder. -/
def packAux (maxSize : Nat) (buf : String) : List String → List String
  | [] => if buf = "" then [] else [buf]
  | line :: rest =>
    if buf.length + 1 + line.length > maxSize then
      buf :: packAux maxSize line rest
    else
      packAux maxSize (bufAppend buf line) rest

/-- `statsd_packets_from_lines` from the source (packets as pre-encoding
strings, see the header note). -/
def statsd_packets_from_lines (lines : List String) (maxSize : Nat) : List String :=
  packAux maxSize "" lines

/-- The batching contract as the specification words it: greedily fold the
lines into a `(completed packets, current buffer)` pair, starting a new
packet with just the candidate line exactly when the current buffer's
length plus one plus the candidate line's length would exceed `maxSize`,
and flushing any non-empty remainder at the end.  Used to state the
refinement claim about `statsd_packets_from_lines`. -/
def packBatcherSpec (lines : List String) (maxSize : Nat) : List String :=
  let r := lines.foldl
    (fun acc line =>
      if acc.2.length + 1 + line.length > maxSize then
        (acc.1 ++ [acc.2], line)
      else
        (acc.1, bufAppend acc.2 line))
    (([] : List String), "")
  if r.2 = "" then r.1 else r.1 ++ [r.2]

/-- Newline-join of a list of lines (what the growing buffer holds for the
lines it has accepted). -/
def joinLines : List String → String
  | [] => ""
  | [l] => l
  | l :: rest => l ++ "\n" ++ joinLines rest

/-- The aggregated buffer after feeding a whole segment of lines. -/
def foldAppend (b : String) (seg : List String) : String :=
  seg.foldl bufAppend b

/-- The game-data cache of `main` (lines 202-218): the module state is the
last recorded modification time and the optionally held data. -/
structure GameDataCache where
  last_mod : Int
  data : Option GameData
deriving DecidableEq

/-- One pass of the game-data loading slice of `main`'s loop, given the
observed modification time and the (parsed) current file contents: reload
when no data is held or the observed time is strictly greater than the
recorded one; in all cases the observed time becomes the recorded one. -/
def game_data_step (c : GameDataCache) (mtime : Int) (file : GameData) :
    GameDataCache × GameData :=
  let d := match c.data with
    | none => file
    | some d0 => if mtime > c.last_mod then file else d0
  (⟨mtime, some d⟩, d)

/-- The sample-ingestion slice of `main`'s loop (lines 224-226), as a
function of the sample file's state (`none` = absent), the abstract JSON
parse (`none` = `json.load` raises), and whether `os.unlink` fails.
Returns the cycle outcome and the file state afterwards: open fails on an
absent file, a parse error propagates before `os.unlink` runs, and an
unlink failure propagates after the parse with the file left in place. -/
def take_samples (parse : String → Option SamplesData) (unlinkFails : Bool)
    (file : Option String) : Except Unit SamplesData × Option String :=
  match file with
  | none => (Except.error (), none)
  | some content =>
    match parse content with
    | none => (Except.error (), some content)
    | some s =>
      if unlinkFails then (Except.error (), some content)
      else (Except.ok s, none)

/-- The total count contributed to the dictionary key `k` by a signal list. -/
def sumCounts (nm : String) (k : String) (sigs : List CircuitSignal) : Int :=
  ((sigs.filter fun c => decide (gaugeKey nm c.signal = k)).map CircuitSignal.count).sum

/-! ## Packet batcher lemmas -/

theorem joinLines_cons (a : String) (L : List String) (h : L ≠ []) :
    joinLines (a :: L) = a ++ "\n" ++ joinLines L := by
  cases L with
  | nil => exact absurd rfl h
  | cons b bs => rfl

theorem length_bufAppend (b l : String) (h : b ≠ "") :
    (bufAppend b l).length = b.length + 1 + l.length := by
  rw [bufAppend, if_neg h, String.length_append, String.length_append]
  have h1 : ("\n" : String).length = 1 := rfl
  rw [h1]

theorem bufAppend_ne_empty (b l : String) (h : b ≠ "") : bufAppend b l ≠ "" := by
  intro heq
  have hlen := congrArg String.length heq
  rw [length_bufAppend b l h] at hlen
  have h2 : b.length + 1 + l.length = 0 := hlen
  omega

theorem packAux_ne_nil (maxSize : Nat) :
    ∀ (lines : List String) (buf : String), buf ≠ "" →
      packAux maxSize buf lines ≠ [] := by
  intro lines
  induction lines with
  | nil => intro buf h; simp [packAux, h]
  | cons l rest ih =>
    intro buf h
    unfold packAux
    split
    · simp
    · exact ih (bufAppend buf l) (bufAppend_ne_empty buf l h)

theorem joinLines_append_cons (b x : String) (r : List String) :
    joinLines ((b ++ "\n" ++ x) :: r) = joinLines (b :: x :: r) := by
  cases r with
  | nil => simp [joinLines]
  | cons y ys => simp [joinLines, String.append_assoc]

theorem joinLines_packAux (maxSize : Nat) :
    ∀ (lines : List String) (buf : String), buf ≠ "" →
      (∀ l ∈ lines, l ≠ "") →
      joinLines (packAux maxSize buf lines) = joinLines (buf :: lines) := by
  intro lines
  induction lines with
  | nil => intro buf h _; simp [packAux, h]
  | cons l rest ih =>
    intro buf h hne
    have hl : l ≠ "" := hne l (by simp)
    have hrest : ∀ x ∈ rest, x ≠ "" := fun x hx => hne x (by simp [hx])
    unfold packAux
    split
    · rw [joinLines_cons buf _ (packAux_ne_nil maxSize rest l hl),
        ih l hl hrest,
        joinLines_cons buf (l :: rest) (by simp)]
    · rw [ih (bufAppend buf l) (bufAppend_ne_empty buf l h) hrest]
      have hb : bufAppend buf l = buf ++ "\n" ++ l := by simp [bufAppend, h]
      rw [hb, joinLines_append_cons]

theorem mem_packAux_self (maxSize : Nat) :
    ∀ (lines : List String) (buf : String), maxSize ≤ buf.length → buf ≠ "" →
      buf ∈ packAux maxSize buf lines := by
  intro lines
  induction lines with
  | nil => intro buf _ h2; simp [packAux, h2]
  | cons l rest _ =>
    intro buf h1 _
    unfold packAux
    rw [if_pos (by omega)]
    simp

theorem packAux_small_or (maxSize : Nat) :
    ∀ (lines : List String) (buf : String) (p : String),
      p ∈ packAux maxSize buf lines →
      p.length ≤ maxSize ∨ p = buf ∨ p ∈ lines := by
  intro lines
  induction lines with
  | nil =>
    intro buf p hp
    unfold packAux at hp
    split at hp
    · simp at hp
    · simp at hp; exact Or.inr (Or.inl hp)
  | cons l rest ih =>
    intro buf p hp
    unfold packAux at hp
    split at hp
    · rcases List.mem_cons.mp hp with h | h
      · exact Or.inr (Or.inl h)
      · rcases ih l p h with h1 | h2 | h3
        · exact Or.inl h1
        · exact Or.inr (Or.inr (by simp [h2]))
        · exact Or.inr (Or.inr (by simp [h3]))
    · rename_i hcond
      rcases ih (bufAppend buf l) p hp with h1 | h2 | h3
      · exact Or.inl h1
      · by_cases hb : buf = ""
        · exact Or.inr (Or.inr (by simp [h2, bufAppend, hb]))
        · refine Or.inl ?_
          rw [h2, length_bufAppend buf l hb]
          omega
      · exact Or.inr (Or.inr (by simp [h3]))

theorem mem_packAux_oversized (maxSize : Nat) :
    ∀ (lines : List String) (buf : String) (l : String),
      l ∈ lines → maxSize < l.length →
      l ∈ packAux maxSize buf lines := by
  intro lines
  induction lines with
  | nil => intro _ l hmem _; exact absurd hmem (by simp)
  | cons x rest ih =>
    intro buf l hl hbig
    have hlne : l ≠ "" := by
      intro h
      rw [h] at hbig
      simp at hbig
    rcases List.mem_cons.mp hl with h | h
    · subst h
      unfold packAux
      rw [if_pos (by omega)]
      exact List.mem_cons_of_mem _ (mem_packAux_self maxSize rest l (by omega) hlne)
    · unfold packAux
      split
      · exact List.mem_cons_of_mem _ (ih x l h hbig)
      · exact ih (bufAppend buf x) l h hbig

theorem foldAppend_nil (b : String) : foldAppend b [] = b := rfl

theorem foldAppend_cons (b l : String) (seg : List String) :
    foldAppend b (l :: seg) = foldAppend (bufAppend b l) seg := rfl

theorem packAux_mem_foldAppend (maxSize : Nat) :
    ∀ (lines : List String) (buf : String) (p : String),
      p ∈ packAux maxSize buf lines →
      (∃ k, p = foldAppend buf (lines.take k)) ∨
      (∃ i k, p = foldAppend "" ((lines.drop i).take k)) := by
  intro lines
  induction lines with
  | nil =>
    intro buf p hp
    unfold packAux at hp
    split at hp
    · simp at hp
    · simp at hp
      exact Or.inl ⟨0, by simp [hp, foldAppend_nil]⟩
  | cons l rest ih =>
    intro buf p hp
    unfold packAux at hp
    split at hp
    · rcases List.mem_cons.mp hp with h | h
      · exact Or.inl ⟨0, by simp [h, foldAppend_nil]⟩
      · rcases ih l p h with ⟨k, hk⟩ | ⟨i, k, hik⟩
        · refine Or.inr ⟨0, k + 1, ?_⟩
          simpa [foldAppend_cons, bufAppend] using hk
        · exact Or.inr ⟨i + 1, k, by simpa using hik⟩
    · rcases ih (bufAppend buf l) p hp with ⟨k, hk⟩ | ⟨i, k, hik⟩
      · exact Or.inl ⟨k + 1, by simpa [foldAppend_cons] using hk⟩
      · exact Or.inr ⟨i + 1, k, by simpa using hik⟩

theorem foldAppend_nonempty :
    ∀ (seg : List String) (b : String), b ≠ "" →
      foldAppend b seg = joinLines (b :: seg) := by
  intro seg
  induction seg with
  | nil => intro b _; rfl
  | cons x r ih =>
    intro b hb
    rw [foldAppend_cons, ih (bufAppend b x) (bufAppend_ne_empty b x hb)]
    have hbx : bufAppend b x = b ++ "\n" ++ x := by simp [bufAppend, hb]
    rw [hbx, joinLines_append_cons]

theorem foldAppend_empty :
    ∀ seg : List String,
      foldAppend "" seg = joinLines (seg.dropWhile fun l => l == "") := by
  intro seg
  induction seg with
  | nil => rfl
  | cons l rest ih =>
    rw [foldAppend_cons]
    by_cases hl : l = ""
    · subst hl
      simpa [bufAppend] using ih
    · have : bufAppend "" l = l := by simp [bufAppend]
      rw [this, foldAppend_nonempty rest l hl]
      have : (rest.dropWhile fun x => x == "") = rest.dropWhile (fun x => x == "") := rfl
      simp [List.dropWhile_cons, hl]

theorem packBatcherSpec_aux (maxSize : Nat) :
    ∀ (lines : List String) (acc : List String) (buf : String),
      (let r := lines.foldl
        (fun acc line =>
          if acc.2.length + 1 + line.length > maxSize then
            (acc.1 ++ [acc.2], line)
          else
            (acc.1, bufAppend acc.2 line))
        (acc, buf)
      if r.2 = "" then r.1 else r.1 ++ [r.2]) = acc ++ packAux maxSize buf lines := by
  intro lines
  induction lines with
  | nil =>
    intro acc buf
    simp only [List.foldl_nil, packAux]
    split
    · simp_all
    · simp_all
  | cons l rest ih =>
    intro acc buf
    simp only [List.foldl_cons, packAux]
    split
    · simpa using ih (acc ++ [buf]) l
    · simpa using ih acc (bufAppend buf l)

theorem pack_eq_packBatcherSpec (lines : List String) (maxSize : Nat) :
    statsd_packets_from_lines lines maxSize = packBatcherSpec lines maxSize := by
  have h := packBatcherSpec_aux maxSize lines [] ""
  simpa [packBatcherSpec, statsd_packets_from_lines] using h.symm

theorem pack_mem_infix (lines : List String) (maxSize : Nat) (p : String)
    (hp : p ∈ statsd_packets_from_lines lines maxSize) :
    ∃ pre mid suf, lines = pre ++ mid ++ suf ∧ p = joinLines mid := by
  rcases packAux_mem_foldAppend maxSize lines "" p hp with ⟨k, hk⟩ | ⟨i, k, hik⟩
  · refine ⟨(lines.take k).takeWhile (fun l => l == ""),
            (lines.take k).dropWhile (fun l => l == ""),
            lines.drop k, ?_, ?_⟩
    · rw [List.takeWhile_append_dropWhile, List.take_append_drop]
    · rw [hk, foldAppend_empty]
  · refine ⟨lines.take i ++ ((lines.drop i).take k).takeWhile (fun l => l == ""),
            ((lines.drop i).take k).dropWhile (fun l => l == ""),
            (lines.drop i).drop k, ?_, ?_⟩
    · rw [List.append_assoc (lines.take i), List.append_assoc (lines.take i),
        List.takeWhile_append_dropWhile, List.take_append_drop, List.take_append_drop]
    · rw [hik, foldAppend_empty]

/-! ## Aggregator lemmas -/

theorem sumCounts_nil (nm k : String) : sumCounts nm k [] = 0 := rfl

theorem sumCounts_cons (nm k : String) (c : CircuitSignal) (rest : List CircuitSignal) :
    sumCounts nm k (c :: rest) =
      if gaugeKey nm c.signal = k then c.count + sumCounts nm k rest
      else sumCounts nm k rest := by
  by_cases h : gaugeKey nm c.signal = k <;>
    simp [sumCounts, List.filter_cons, h]

theorem lookupKey_append (m₁ m₂ : List (String × Gauge)) (k : String) :
    lookupKey (m₁ ++ m₂) k =
      match lookupKey m₁ k with
      | some g => some g
      | none => lookupKey m₂ k := by
  induction m₁ with
  | nil => simp [lookupKey]
  | cons p rest ih =>
    by_cases h : p.1 = k <;> simp [lookupKey, h, ih]

theorem lookupKey_update (m : List (String × Gauge)) (key k : String) (f : Gauge → Gauge) :
    lookupKey (m.map fun p => if p.1 = key then (p.1, f p.2) else p) k =
      if k = key then (lookupKey m k).map f else lookupKey m k := by
  induction m with
  | nil => simp [lookupKey]
  | cons p rest ih =>
    by_cases h1 : p.1 = key
    · by_cases h2 : p.1 = k
      · have hk : k = key := by rw [← h2, h1]
        simp [lookupKey, h1, h2, hk]
      · have hrw : lookupKey (p :: rest) k = lookupKey rest k := by
          simp [lookupKey, h2]
        simp only [List.map_cons, if_pos h1, lookupKey, h2, if_neg h2, hrw]
        exact ih
    · by_cases h2 : p.1 = k
      · have hk : ¬ k = key := fun he => h1 (by rw [h2, he])
        simp [lookupKey, h1, h2, hk]
      · have hrw : lookupKey (p :: rest) k = lookupKey rest k := by
          simp [lookupKey, h2]
        simp only [List.map_cons, if_neg h1, lookupKey, h2, if_neg h2, hrw]
        exact ih

theorem lookupKey_isSome_iff (m : List (String × Gauge)) (k : String) :
    (lookupKey m k).isSome ↔ ∃ g, (k, g) ∈ m := by
  induction m with
  | nil => simp [lookupKey]
  | cons p rest ih =>
    by_cases h : p.1 = k
    · simp only [lookupKey, if_pos h]
      constructor
      · intro _
        refine ⟨p.2, ?_⟩
        rw [← h]
        simp
      · intro _
        simp
    · simp only [lookupKey, if_neg h, ih, List.mem_cons]
      constructor
      · rintro ⟨g, hg⟩
        exact ⟨g, Or.inr hg⟩
      · rintro ⟨g, hg | hg⟩
        · exact absurd (congrArg Prod.fst hg.symm) h
        · exact ⟨g, hg⟩

theorem mem_of_lookupKey (m : List (String × Gauge)) (k : String) (g : Gauge)
    (h : lookupKey m k = some g) : (k, g) ∈ m := by
  induction m with
  | nil => simp [lookupKey] at h
  | cons p rest ih =>
    by_cases hp : p.1 = k
    · simp only [lookupKey, if_pos hp] at h
      injection h with h2
      rw [← hp, ← h2]
      simp
    · simp only [lookupKey, if_neg hp] at h
      exact List.mem_cons_of_mem _ (ih h)

theorem lookupKey_of_mem_nodup (m : List (String × Gauge)) (k : String) (g : Gauge)
    (hnd : (m.map Prod.fst).Nodup) (h : (k, g) ∈ m) : lookupKey m k = some g := by
  induction m with
  | nil => simp at h
  | cons p rest ih =>
    rcases List.mem_cons.mp h with h1 | h1
    · rw [← h1]
      simp [lookupKey]
    · have hnd2 : (rest.map Prod.fst).Nodup := by
        rw [List.map_cons, List.nodup_cons] at hnd
        exact hnd.2
      have hk : p.1 ≠ k := by
        intro he
        rw [List.map_cons, List.nodup_cons] at hnd
        exact hnd.1 (he ▸ List.mem_map_of_mem Prod.fst h1)
      simp only [lookupKey, if_neg hk]
      exact ih hnd2 h1

theorem lookupKey_addSignal (nm : String) (tags0 : List Tag)
    (m : List (String × Gauge)) (c : CircuitSignal) (k : String) :
    lookupKey (addSignal nm tags0 m c) k =
      if gaugeKey nm c.signal = k then
        match lookupKey m k with
        | some g => some { g with n := g.n + c.count }
        | none => some ⟨nm, c.count, tags0 ++ synthTags c.signal⟩
      else lookupKey m k := by
  unfold addSignal
  cases hm : lookupKey m (gaugeKey nm c.signal) with
  | none =>
    simp only [hm]
    rw [lookupKey_append]
    by_cases hk : gaugeKey nm c.signal = k
    · rw [← hk, hm]
      simp [lookupKey, hk]
    · cases hmk : lookupKey m k with
      | none => simp [lookupKey, hk, hmk]
      | some g => simp [lookupKey, hk, hmk]
  | some g0 =>
    simp only [hm]
    rw [lookupKey_update m (gaugeKey nm c.signal) k
      (fun g => { g with n := g.n + c.count })]
    by_cases hk : gaugeKey nm c.signal = k
    · rw [if_pos hk.symm, if_pos hk, ← hk, hm]
      rfl
    · rw [if_neg (fun he => hk he.symm), if_neg hk]

theorem keys_addSignal_subset (nm : String) (tags0 : List Tag)
    (m : List (String × Gauge)) (c : CircuitSignal)
    (hnd : (m.map Prod.fst).Nodup) :
    ((addSignal nm tags0 m c).map Prod.fst).Nodup := by
  unfold addSignal
  cases hm : lookupKey m (gaugeKey nm c.signal) with
  | none =>
    simp only [hm, List.map_append, List.map_cons, List.map_nil]
    rw [List.nodup_append]
    refine ⟨hnd, List.nodup_singleton _, ?_⟩
    intro a ha hb
    simp at hb
    subst hb
    have : (lookupKey m (gaugeKey nm c.signal)).isSome := by
      rcases List.mem_map.mp ha with ⟨p, hp, hfst⟩
      rw [lookupKey_isSome_iff]
      exact ⟨p.2, by rw [← hfst]; simpa using hp⟩
    rw [hm] at this
    simp at this
  | some g0 =>
    have hkeys : ((m.map fun p =>
        if p.1 = gaugeKey nm c.signal then (p.1, { p.2 with n := p.2.n + c.count }) else p).map
          Prod.fst) = m.map Prod.fst := by
      rw [List.map_map]
      refine List.map_congr_left ?_
      intro p _
      by_cases h : p.1 = gaugeKey nm c.signal <;> simp [h]
    simp only [hm, hkeys]
    exact hnd

theorem nodup_fold_addSignal (nm : String) (tags0 : List Tag) :
    ∀ (sigs : List CircuitSignal) (m : List (String × Gauge)),
      (m.map Prod.fst).Nodup →
      ((sigs.foldl (addSignal nm tags0) m).map Prod.fst).Nodup := by
  intro sigs
  induction sigs with
  | nil => intro m h; exact h
  | cons c rest ih =>
    intro m h
    exact ih _ (keys_addSignal_subset nm tags0 m c h)

theorem fold_addSignal_lookup (nm : String) (tags0 : List Tag) :
    ∀ (sigs : List CircuitSignal) (m : List (String × Gauge)) (k : String),
      lookupKey (sigs.foldl (addSignal nm tags0) m) k =
        match lookupKey m k with
        | some g => some { g with n := g.n + sumCounts nm k sigs }
        | none =>
          match sigs.find? (fun c => decide (gaugeKey nm c.signal = k)) with
          | some c => some ⟨nm, sumCounts nm k sigs, tags0 ++ synthTags c.signal⟩
          | none => none := by
  intro sigs
  induction sigs with
  | nil =>
    intro m k
    simp only [List.foldl_nil]
    cases hm : lookupKey m k with
    | none => simp [hm]
    | some g => simp [hm, sumCounts]
  | cons c rest ih =>
    intro m k
    rw [List.foldl_cons, ih (addSignal nm tags0 m c) k, lookupKey_addSignal]
    by_cases hk : gaugeKey nm c.signal = k
    · rw [if_pos hk, sumCounts_cons, if_pos hk,
        List.find?_cons_of_pos _ (by simp [hk])]
      cases hm : lookupKey m k with
      | some g => simp [Int.add_assoc]
      | none => simp [Int.add_comm, Int.add_assoc]
    · rw [if_neg hk, sumCounts_cons, if_neg hk,
        List.find?_cons_of_neg _ (by simp [hk])]

theorem string_ext_data {s t : String} (h : s.data = t.data) : s = t := by
  cases s
  cases t
  exact congrArg String.mk h

theorem gaugeKey_inj (nm : String) (s1 s2 : Signal)
    (h : gaugeKey nm s1 = gaugeKey nm s2) :
    signalTypeName s1 = signalTypeName s2 := by
  apply string_ext_data
  have hd := congrArg String.data h
  simp only [gaugeKey, String.data_append] at hd
  exact List.append_cancel_left hd

theorem entityGauges_ignore (gd : GameData) (e : GameEntity)
    (habs : e.settings.absent_signals = "ignore") :
    entityGauges gd e = (e.red_signals ++ e.green_signals).foldl
      (addSignal (normalize_metric_name e.settings.name) (parseTags e.settings.tags)) [] := by
  simp only [entityGauges]
  rw [if_neg (by rw [habs]; decide)]

theorem statsd_gauges_eq_foldr (gd : GameData) :
    ∀ es : List GameEntity, (∀ e ∈ es, e.settings.name ≠ "") →
      statsd_gauges_from_samples_data gd ⟨es⟩ =
        es.foldr (fun e acc => (entityGauges gd e).map Prod.snd ++ acc) [] := by
  intro es
  induction es with
  | nil => intro _; rfl
  | cons e rest ih =>
    intro h
    simp only [statsd_gauges_from_samples_data, List.foldr_cons]
    rw [if_neg (h e (by simp))]
    congr 1
    exact ih fun x hx => h x (by simp [hx])

theorem addSignal_shape (nm : String) (tags0 : List Tag)
    (m : List (String × Gauge)) (cs : CircuitSignal)
    (h : ∀ p ∈ m, ∃ s : Signal, (p : String × Gauge).2.tags = tags0 ++ synthTags s) :
    ∀ p ∈ addSignal nm tags0 m cs, ∃ s : Signal, p.2.tags = tags0 ++ synthTags s := by
  intro p hp
  unfold addSignal at hp
  cases hm : lookupKey m (gaugeKey nm cs.signal) with
  | none =>
    simp only [hm] at hp
    rcases List.mem_append.mp hp with h1 | h1
    · exact h p h1
    · simp at h1
      exact ⟨cs.signal, by rw [h1]⟩
  | some g0 =>
    simp only [hm] at hp
    rcases List.mem_map.mp hp with ⟨q, hq, hpq⟩
    by_cases hk : q.1 = gaugeKey nm cs.signal
    · rw [if_pos hk] at hpq
      rcases h q hq with ⟨s, hs⟩
      exact ⟨s, by rw [← hpq]; exact hs⟩
    · rw [if_neg hk] at hpq
      rw [← hpq]
      exact h q hq

theorem addAbsent_shape (nm : String) (tags0 : List Tag) (ty : String)
    (m : List (String × Gauge)) (sn : String)
    (h : ∀ p ∈ m, ∃ s : Signal, (p : String × Gauge).2.tags = tags0 ++ synthTags s) :
    ∀ p ∈ addAbsent nm tags0 ty m sn, ∃ s : Signal, p.2.tags = tags0 ++ synthTags s := by
  intro p hp
  unfold addAbsent at hp
  cases hm : lookupKey m (gaugeKey nm ⟨ty, sn⟩) with
  | none =>
    simp only [hm] at hp
    rcases List.mem_append.mp hp with h1 | h1
    · exact h p h1
    · simp at h1
      exact ⟨⟨ty, sn⟩, by rw [h1]⟩
  | some g0 =>
    simp only [hm] at hp
    exact h p hp

theorem fold_addSignal_shape (nm : String) (tags0 : List Tag) :
    ∀ (sigs : List CircuitSignal) (m : List (String × Gauge)),
      (∀ p ∈ m, ∃ s : Signal, (p : String × Gauge).2.tags = tags0 ++ synthTags s) →
      ∀ p ∈ sigs.foldl (addSignal nm tags0) m, ∃ s : Signal, p.2.tags = tags0 ++ synthTags s := by
  intro sigs
  induction sigs with
  | nil => intro m h; exact h
  | cons c rest ih =>
    intro m h
    exact ih _ (addSignal_shape nm tags0 m c h)

theorem fold_addAbsent_shape (nm : String) (tags0 : List Tag) (ty : String) :
    ∀ (sns : List String) (m : List (String × Gauge)),
      (∀ p ∈ m, ∃ s : Signal, (p : String × Gauge).2.tags = tags0 ++ synthTags s) →
      ∀ p ∈ sns.foldl (addAbsent nm tags0 ty) m, ∃ s : Signal, p.2.tags = tags0 ++ synthTags s := by
  intro sns
  induction sns with
  | nil => intro m h; exact h
  | cons sn rest ih =>
    intro m h
    exact ih _ (addAbsent_shape nm tags0 ty m sn h)

theorem entityGauges_shape (gd : GameData) (e : GameEntity) :
    ∀ p ∈ entityGauges gd e,
      ∃ s : Signal, (p : String × Gauge).2.tags = parseTags e.settings.tags ++ synthTags s := by
  intro p hp
  unfold entityGauges at hp
  by_cases habs : e.settings.absent_signals = "treat-as-0"
  · rw [if_pos habs] at hp
    refine fold_addAbsent_shape _ _ _ _ _ (fold_addAbsent_shape _ _ _ _ _
      (fold_addAbsent_shape _ _ _ _ _ (fold_addSignal_shape _ _ _ _ (by simp)) ) ) p hp
  · rw [if_neg habs] at hp
    exact fold_addSignal_shape _ _ _ _ (by simp) p hp

/-! ## Claim theorems -/

/-- C2: for an entity with `absent_signals = "treat-as-0"`, reference data
`{virtual: ["signal-A"], item: ["coal"], fluid: ["water"]}` and one
observed `item.coal` signal of count 2, aggregation yields exactly the
three gauges `(my_metric, 2, item/coal)`, `(my_metric, 0, virtual/signal-A)`
and `(my_metric, 0, fluid/water)` (here proved as a list equality, which
implies the claimed order-independent set equality), each gauge carrying
the entity's own parsed tags followed by the synthesized `signal_type` and
`signal_name` tags; stated for an arbitrary entity tags string `ts`. -/
theorem claim2_treat_as_0 (ts : String) :
    statsd_gauges_from_samples_data ⟨["signal-A"], ["coal"], ["water"]⟩
      ⟨[⟨⟨"my_metric", ts, "treat-as-0"⟩, [⟨⟨"item", "coal"⟩, 2⟩], []⟩]⟩ =
      [⟨"my_metric", 2, parseTags ts ++ [⟨"signal_type", some "item"⟩, ⟨"signal_name", some "coal"⟩]⟩,
       ⟨"my_metric", 0, parseTags ts ++ [⟨"signal_type", some "virtual"⟩, ⟨"signal_name", some "signal-A"⟩]⟩,
       ⟨"my_metric", 0, parseTags ts ++ [⟨"signal_type", some "fluid"⟩, ⟨"signal_name", some "water"⟩]⟩] := by
  rfl

theorem front_mk_cons (c : Char) (cs : List Char) : (String.mk (c :: cs)).front = c := rfl

/-- C3: for every non-empty name, `normalize_metric_name` equals the
four-step pipeline the specification describes (prepend `x` when the
first character is not alphabetic, lowercase, replace every character
that is neither alphanumeric nor underscore nor period by an underscore,
truncate to 200 characters), and in particular
`normalize("3Bad Name!") = "x3bad_name_"`. -/
theorem claim3_normalize (name : String) (h : name ≠ "") :
    normalize_metric_name name = normalizeSpec name ∧
    normalize_metric_name "3Bad Name!" = "x3bad_name_" := by
  constructor
  · obtain ⟨c, cs, hdata⟩ : ∃ c cs, name.data = c :: cs := by
      cases hd : name.data with
      | nil => exact absurd (string_ext_data hd) h
      | cons c cs => exact ⟨c, cs, rfl⟩
    rw [string_ext_data hdata]
    have hfun : replaceChar = replaceCharSpec := by
      funext c'
      unfold replaceChar replaceCharSpec
      by_cases ha : c'.isAlphanum
      · simp [ha]
      · by_cases hu : c' = '_'
        · simp [ha, hu]
        · by_cases hp : c' = '.'
          · simp [ha, hu, hp]
          · simp [ha, hu, hp]
    simp only [normalize_metric_name, normalizeSpec, front_mk_cons]
    rw [hfun]
    by_cases hc : c.isAlpha
    · rw [if_neg (by simp [hc]), if_pos hc]
    · rw [if_pos (by simp [hc]), if_neg hc]
  · decide

/-- C3 witness: the refinement applied at the concrete example name. -/
theorem claim3_witness :
    normalize_metric_name "3Bad Name!" = normalizeSpec "3Bad Name!" ∧
    normalize_metric_name "3Bad Name!" = "x3bad_name_" :=
  claim3_normalize "3Bad Name!" (by decide)

/-- C4: the packet batcher never splits a line across packets (every
packet is the newline-join of a contiguous subsequence of the input
lines), it equals the greedy accumulate-and-flush procedure described by
the claim (`packBatcherSpec`, which starts a new packet exactly when the
buffer length plus one plus the candidate line length would exceed
`maxSize`), a single line longer than `maxSize` becomes a packet of its
own, every packet longer than `maxSize` is such a single line (hence every
packet holding two or more lines fits in `maxSize`), and
`pack(["foo","bar","baz"], 7) = ["foo\nbar", "baz"]`. -/
theorem claim4_packet_batcher :
    statsd_packets_from_lines ["foo", "bar", "baz"] 7 = ["foo\nbar", "baz"] ∧
    (∀ (lines : List String) (maxSize : Nat),
      statsd_packets_from_lines lines maxSize = packBatcherSpec lines maxSize) ∧
    (∀ (lines : List String) (maxSize : Nat) (p : String),
      p ∈ statsd_packets_from_lines lines maxSize →
      ∃ pre mid suf, lines = pre ++ mid ++ suf ∧ p = joinLines mid) ∧
    (∀ (lines : List String) (maxSize : Nat) (l : String),
      l ∈ lines → maxSize < l.length → l ∈ statsd_packets_from_lines lines maxSize) ∧
    (∀ (lines : List String) (maxSize : Nat) (p : String),
      p ∈ statsd_packets_from_lines lines maxSize → maxSize < p.length → p ∈ lines) := by
  refine ⟨by decide, pack_eq_packBatcherSpec, pack_mem_infix, ?_, ?_⟩
  · intro lines maxSize l hl hbig
    exact mem_packAux_oversized maxSize lines "" l hl hbig
  · intro lines maxSize p hp hbig
    rcases packAux_small_or maxSize lines "" p hp with h | h | h
    · omega
    · subst h
      have h0 : ("" : String).length = 0 := rfl
      omega
    · exact h

/-- C4 witness: the oversized-line conjunct applied at a concrete input:
a line of length 5 with `maxSize = 3` appears as its own packet. -/
theorem claim4_witness : "aaaaa" ∈ statsd_packets_from_lines ["aaaaa"] 3 :=
  claim4_packet_batcher.2.2.2.1 ["aaaaa"] 3 "aaaaa" (by decide) (by decide)

/-- C5 counterexample: with a first line at least as long as `maxSize`
the batcher emits a leading empty packet, so joining the packets does not
reconstruct the join of the lines: `pack(["aaaa"], 3) = ["", "aaaa"]` and
`join ["", "aaaa"] = "\naaaa" ≠ "aaaa" = join ["aaaa"]`. -/
theorem claim5_counterexample :
    statsd_packets_from_lines ["aaaa"] 3 = ["", "aaaa"] ∧
    joinLines ["", "aaaa"] ≠ joinLines ["aaaa"] := by
  decide

/-- C5 (amended): provided every line is non-empty and the first line (if
any) is strictly shorter than `maxSize`, concatenating all packets joined
by newline reconstructs the newline-join of the original lines in order. -/
theorem claim5_reconstruction (lines : List String) (maxSize : Nat)
    (hne : ∀ l ∈ lines, l ≠ "")
    (hfirst : ∀ l0 ∈ lines.take 1, l0.length < maxSize) :
    joinLines (statsd_packets_from_lines lines maxSize) = joinLines lines := by
  cases lines with
  | nil => rfl
  | cons l rest =>
    have hl : l ≠ "" := hne l (by simp)
    have hlen : l.length < maxSize := hfirst l (by simp)
    simp only [statsd_packets_from_lines, packAux]
    rw [if_neg (by have h0 : ("" : String).length = 0 := rfl; omega)]
    have hb : bufAppend "" l = l := by simp [bufAppend]
    rw [hb, joinLines_packAux maxSize rest l hl fun x hx => hne x (by simp [hx])]

/-- C5 witness: the amended reconstruction applied at a concrete input. -/
theorem claim5_witness :
    joinLines (statsd_packets_from_lines ["abc", "de"] 7) = joinLines ["abc", "de"] :=
  claim5_reconstruction ["abc", "de"] 7 (by decide) (by decide)

/-- C6 counterexample: the dogstatsd formatter appends `|#`
unconditionally, so a gauge with an empty tag list renders as
`"my_metric:2|g|#"`, not as the claim's `"my_metric:2|g"`. -/
theorem claim6_counterexample :
    dogstatsd_line_formatter ⟨"my_metric", 2, []⟩ = "my_metric:2|g|#" ∧
    "my_metric:2|g|#" ≠ "my_metric:2|g" := by
  decide

/-- C6 (amended): the dogstatsd formatter always renders
`<name>:<count>|g|#<comma-joined tags>` with the `|#` separator appended
unconditionally; for a gauge with at least one tag this is exactly the
claimed format, while an empty tag list yields a trailing `|#`.  The
spec's concrete example renders as claimed. -/
theorem claim6_dogstatsd (g : Gauge) :
    dogstatsd_line_formatter g =
      g.name ++ ":" ++ toString g.n ++ "|g|#" ++
        String.intercalate "," (g.tags.map tagDog) ∧
    (g.tags = [] → dogstatsd_line_formatter g = g.name ++ ":" ++ toString g.n ++ "|g|#") ∧
    dogstatsd_line_formatter ⟨"my_metric", 2,
        [⟨"base", some "alpha"⟩, ⟨"planet", some "nauvis"⟩, ⟨"ores", none⟩,
         ⟨"signal_type", some "item"⟩, ⟨"signal_name", some "coal"⟩]⟩ =
      "my_metric:2|g|#base:alpha,planet:nauvis,ores,signal_type:item,signal_name:coal" := by
  refine ⟨rfl, ?_, by decide⟩
  intro h
  simp only [dogstatsd_line_formatter, h, List.map_nil]
  have h1 : String.intercalate "," ([] : List String) = "" := rfl
  rw [h1]
  simp

/-- C6 witness: the empty-tag-list branch of the amended claim at a
concrete gauge. -/
theorem claim6_witness :
    dogstatsd_line_formatter ⟨"m", 0, []⟩ = "m" ++ ":" ++ toString (0 : Int) ++ "|g|#" :=
  (claim6_dogstatsd ⟨"m", 0, []⟩).2.1 rfl

/-- C7 counterexample: with data held at recorded time 5 and an observed
modification time of 3 (different from 5), the cache step returns the
cached value, not the re-parsed file, refuting "re-parsed on a difference
in either direction". -/
theorem claim7_counterexample :
    (game_data_step ⟨5, some ⟨["a"], [], []⟩⟩ 3 ⟨[], [], []⟩).2 = ⟨["a"], [], []⟩ ∧
    (⟨["a"], [], []⟩ : GameData) ≠ ⟨[], [], []⟩ ∧
    (3 : Int) ≠ 5 := by
  decide

/-- C7 (amended): the game-data cache step reloads from the file exactly
when no data is held or the observed modification time is strictly
greater than the recorded one; when data is held and the observed time is
not strictly greater (equal or smaller), the cached value is returned
unchanged; in every case the observed time becomes the recorded one and
the returned value becomes the cached data. -/
theorem claim7_cache_step (c : GameDataCache) (mtime : Int) (file : GameData) :
    (game_data_step c mtime file).1.last_mod = mtime ∧
    (game_data_step c mtime file).1.data = some (game_data_step c mtime file).2 ∧
    (c.data = none → (game_data_step c mtime file).2 = file) ∧
    (∀ d0, c.data = some d0 → c.last_mod < mtime → (game_data_step c mtime file).2 = file) ∧
    (∀ d0, c.data = some d0 → ¬ c.last_mod < mtime → (game_data_step c mtime file).2 = d0) := by
  refine ⟨rfl, rfl, ?_, ?_, ?_⟩
  · intro h
    simp only [game_data_step, h]
  · intro d0 h hlt
    simp only [game_data_step, h]
    rw [if_pos hlt]
  · intro d0 h hlt
    simp only [game_data_step, h]
    rw [if_neg hlt]

/-- C7 witness: the no-data-held branch of the amended claim at a
concrete state. -/
theorem claim7_witness :
    (game_data_step ⟨0, none⟩ 7 ⟨[], [], []⟩).2 = ⟨[], [], []⟩ :=
  (claim7_cache_step ⟨0, none⟩ 7 ⟨[], [], []⟩).2.2.1 rfl

/-- C8: sample ingestion deletes the file only after read and parse both
succeed: when the file ends up deleted it was read and parsed
successfully; a parse failure leaves the file in place and yields the
error outcome; an absent file yields the error outcome with no file-state
change; the parsed structure is returned exactly when read, parse and
deletion all succeed; and a successful return implies the file was
deleted. -/
theorem claim8_ingest (parse : String → Option SamplesData) (unlinkFails : Bool)
    (file : Option String) :
    ((take_samples parse unlinkFails file).2 = none → file ≠ none →
      ∃ content s, file = some content ∧ parse content = some s ∧
        (take_samples parse unlinkFails file).1 = Except.ok s) ∧
    (∀ content, file = some content → parse content = none →
      (take_samples parse unlinkFails file).2 = file ∧
      (take_samples parse unlinkFails file).1 = Except.error ()) ∧
    (file = none →
      (take_samples parse unlinkFails file).2 = none ∧
      (take_samples parse unlinkFails file).1 = Except.error ()) ∧
    (∀ s, (take_samples parse unlinkFails file).1 = Except.ok s ↔
      (∃ content, file = some content ∧ parse content = some s) ∧ unlinkFails = false) ∧
    (∀ s, (take_samples parse unlinkFails file).1 = Except.ok s →
      (take_samples parse unlinkFails file).2 = none) := by
  cases file with
  | none => simp [take_samples]
  | some content =>
    cases hp : parse content with
    | none => simp [take_samples, hp]
    | some s0 =>
      cases unlinkFails with
      | true => simp [take_samples, hp]
      | false =>
        simp [take_samples, hp]

/-- C8 witness: a parse failure at a concrete input leaves the file in
place and produces the error outcome. -/
theorem claim8_witness :
    (take_samples (fun _ => none) false (some "x")).2 = some "x" ∧
    (take_samples (fun _ => none) false (some "x")).1 = Except.error () :=
  (claim8_ingest (fun _ => none) false (some "x")).2.1 "x" rfl rfl

/-- C9 counterexample: for `maxSize = 0` and the single line `""` (whose
length 0 is ≥ maxSize) the batcher emits exactly one packet, the empty
buffer flush; there is no later packet containing the line, so the claim's
"empty packet before the packet containing that oversized line" fails. -/
theorem claim9_counterexample :
    statsd_packets_from_lines [""] 0 = [""] ∧
    (0 : Nat) ≤ ("" : String).length ∧
    ¬ "" ∈ (statsd_packets_from_lines [""] 0).tail := by
  decide

/-- C9 (amended): whenever the first line's length is at least `maxSize`,
the first emitted packet is the empty buffer, followed by the packets of
the remaining run; and whenever that first line is non-empty (in
particular whenever `maxSize > 0`), the line itself appears among the
later packets. -/
theorem claim9_leading_empty_packet (l : String) (rest : List String) (maxSize : Nat)
    (h : maxSize ≤ l.length) :
    statsd_packets_from_lines (l :: rest) maxSize = "" :: packAux maxSize l rest ∧
    (l ≠ "" → l ∈ packAux maxSize l rest) := by
  constructor
  · simp only [statsd_packets_from_lines, packAux]
    rw [if_pos (by have h0 : ("" : String).length = 0 := rfl; omega)]
  · intro hl
    exact mem_packAux_self maxSize rest l h hl

/-- C9 witness: the amended claim applied at a concrete oversized first
line. -/
theorem claim9_witness : "abc" ∈ packAux 3 "abc" [] :=
  (claim9_leading_empty_packet "abc" [] 3 (by decide)).2 (by decide)

/-- C10: for an entity whose `settings.tags` string is empty, parsing
produces the single value-less tag with empty name, so every gauge
emitted for that entity carries exactly the tags
`["" (bare), signal_type=t, signal_name=s]` for some signal `(t, s)` —
the empty entity tag placed before the synthesized tags. -/
theorem claim10_empty_entity_tag (gd : GameData) (e : GameEntity)
    (htags : e.settings.tags = "") (hname : e.settings.name ≠ "") :
    ∀ g ∈ statsd_gauges_from_samples_data gd ⟨[e]⟩,
      ∃ t s, g.tags = [⟨"", none⟩, ⟨"signal_type", some t⟩, ⟨"signal_name", some s⟩] := by
  intro g hg
  have h1 : statsd_gauges_from_samples_data gd ⟨[e]⟩ = (entityGauges gd e).map Prod.snd := by
    have h2 := statsd_gauges_eq_foldr gd [e] (by
      intro x hx
      simp at hx
      rw [hx]
      exact hname)
    simpa using h2
  rw [h1] at hg
  rcases List.mem_map.mp hg with ⟨p, hp, hpg⟩
  rcases entityGauges_shape gd e p hp with ⟨s, hs⟩
  refine ⟨s.type, s.name, ?_⟩
  rw [← hpg, hs, htags]
  rfl

/-- C10 witness: the theorem applied to a concrete entity with an empty
tags string and one observed signal. -/
theorem claim10_witness :
    ∃ t s,
      (Gauge.mk "m" 1 [⟨"", none⟩, ⟨"signal_type", some "item"⟩, ⟨"signal_name", some "coal"⟩]).tags =
        [⟨"", none⟩, ⟨"signal_type", some t⟩, ⟨"signal_name", some s⟩] :=
  claim10_empty_entity_tag ⟨[], [], []⟩ ⟨⟨"m", "", "ignore"⟩, [⟨⟨"item", "coal"⟩, 1⟩], []⟩ rfl
    (by decide)
    ⟨"m", 1, [⟨"", none⟩, ⟨"signal_type", some "item"⟩, ⟨"signal_name", some "coal"⟩]⟩ (by decide)

/-- C1 counterexample: gauges are merged by the composite key
`type ++ "." ++ name`, so the two distinct triples `("a", "b.c")` and
`("a.b", "c")` (both composite `"a.b.c"`) produce a single gauge of count
3 rather than one gauge per distinct triple — for an entity with
`absent_signals = "ignore"` and non-empty name "m". -/
theorem claim1_counterexample :
    statsd_gauges_from_samples_data ⟨[], [], []⟩
        ⟨[⟨⟨"m", "", "ignore"⟩, [⟨⟨"a", "b.c"⟩, 1⟩, ⟨⟨"a.b", "c"⟩, 2⟩], []⟩]⟩ =
      [⟨"m", 3, [⟨"", none⟩, ⟨"signal_type", some "a"⟩, ⟨"signal_name", some "b.c"⟩]⟩] ∧
    (⟨"a", "b.c"⟩ : Signal) ≠ ⟨"a.b", "c"⟩ := by
  decide

/-- C1 (amended): the aggregation emits, per entity, the per-entity gauge
dictionary in order, and for every entity with `absent_signals = "ignore"`
and non-empty name whose observed signals have injective composite names
(`type ++ "." ++ name` collides only for equal `(type, name)` pairs): the
dictionary keys are pairwise distinct; a key is present exactly when some
observed red or green signal has it; and the gauge stored under an
observed signal's key has the normalized entity name, count equal to the
sum of the counts of all red and green signals bearing that signal's
`(type, name)` pair, and tags equal to the entity's parsed tags followed
by the synthesized `signal_type` and `signal_name` tags. -/
theorem claim1_one_gauge_per_triple (gd : GameData) (sd : SamplesData)
    (hname : ∀ e ∈ sd.entities, e.settings.name ≠ "")
    (habs : ∀ e ∈ sd.entities, e.settings.absent_signals = "ignore")
    (hinj : ∀ e ∈ sd.entities, ∀ c1 ∈ e.red_signals ++ e.green_signals,
      ∀ c2 ∈ e.red_signals ++ e.green_signals,
      signalTypeName c1.signal = signalTypeName c2.signal → c1.signal = c2.signal) :
    statsd_gauges_from_samples_data gd sd =
      sd.entities.foldr (fun e acc => (entityGauges gd e).map Prod.snd ++ acc) [] ∧
    ∀ e ∈ sd.entities,
      ((entityGauges gd e).map Prod.fst).Nodup ∧
      (∀ k, (∃ g, (k, g) ∈ entityGauges gd e) ↔
        ∃ c ∈ e.red_signals ++ e.green_signals,
          gaugeKey (normalize_metric_name e.settings.name) c.signal = k) ∧
      (∀ c ∈ e.red_signals ++ e.green_signals, ∀ g,
        (gaugeKey (normalize_metric_name e.settings.name) c.signal, g) ∈ entityGauges gd e →
        g.name = normalize_metric_name e.settings.name ∧
        g.n = (((e.red_signals ++ e.green_signals).filter
            fun c2 => decide (c2.signal = c.signal)).map CircuitSignal.count).sum ∧
        g.tags = parseTags e.settings.tags ++ synthTags c.signal) := by
  constructor
  · exact statsd_gauges_eq_foldr gd sd.entities hname
  intro e he
  have hM := entityGauges_ignore gd e (habs e he)
  have hnd : ((entityGauges gd e).map Prod.fst).Nodup := by
    rw [hM]
    exact nodup_fold_addSignal _ _ _ [] (by simp)
  refine ⟨hnd, ?_, ?_⟩
  · intro k
    rw [← lookupKey_isSome_iff, hM, fold_addSignal_lookup,
      show lookupKey ([] : List (String × Gauge)) k = none from rfl]
    cases hf : (e.red_signals ++ e.green_signals).find?
        (fun c => decide (gaugeKey (normalize_metric_name e.settings.name) c.signal = k)) with
    | some c =>
      simp only [hf]
      constructor
      · intro _
        have h0 := List.find?_some hf
        exact ⟨c, List.mem_of_find?_eq_some hf, of_decide_eq_true h0⟩
      · intro _
        simp
    | none =>
      simp only [hf]
      constructor
      · intro hcontra
        simp at hcontra
      · rintro ⟨c, hc, hkey⟩
        have hnp := List.find?_eq_none.mp hf c hc
        rw [hkey] at hnp
        simp at hnp
  · intro c hc g hg
    have hk : lookupKey (entityGauges gd e)
        (gaugeKey (normalize_metric_name e.settings.name) c.signal) = some g :=
      lookupKey_of_mem_nodup _ _ _ hnd hg
    rw [hM, fold_addSignal_lookup,
      show lookupKey ([] : List (String × Gauge))
        (gaugeKey (normalize_metric_name e.settings.name) c.signal) = none from rfl] at hk
    cases hf : (e.red_signals ++ e.green_signals).find?
        (fun c2 => decide (gaugeKey (normalize_metric_name e.settings.name) c2.signal =
          gaugeKey (normalize_metric_name e.settings.name) c.signal)) with
    | none =>
      exact absurd (by simp : (decide (gaugeKey (normalize_metric_name e.settings.name) c.signal =
          gaugeKey (normalize_metric_name e.settings.name) c.signal)) = true)
        (List.find?_eq_none.mp hf c hc)
    | some c1 =>
      simp only [hf] at hk
      have hc1mem : c1 ∈ e.red_signals ++ e.green_signals := List.mem_of_find?_eq_some hf
      have h0 := List.find?_some hf
      have hkeyeq : gaugeKey (normalize_metric_name e.settings.name) c1.signal =
          gaugeKey (normalize_metric_name e.settings.name) c.signal :=
        of_decide_eq_true h0
      have hsig : c1.signal = c.signal :=
        hinj e he c1 hc1mem c hc (gaugeKey_inj _ _ _ hkeyeq)
      injection hk with hk2
      rw [← hk2]
      refine ⟨rfl, ?_, by rw [hsig]⟩
      have hfc : ((e.red_signals ++ e.green_signals).filter
            fun c2 => decide (gaugeKey (normalize_metric_name e.settings.name) c2.signal =
              gaugeKey (normalize_metric_name e.settings.name) c.signal)) =
          ((e.red_signals ++ e.green_signals).filter fun c2 => decide (c2.signal = c.signal)) := by
        refine List.filter_congr fun c2 hc2 => ?_
        by_cases hss : c2.signal = c.signal
        · simp [hss]
        · have hne2 : gaugeKey (normalize_metric_name e.settings.name) c2.signal ≠
              gaugeKey (normalize_metric_name e.settings.name) c.signal :=
            fun hkk => hss (hinj e he c2 hc2 c hc (gaugeKey_inj _ _ _ hkk))
          simp [hss, hne2]
      simp only [sumCounts]
      rw [hfc]

/-- C1 witness: the amended claim applied at the repository's own test
input (one `item.coal` signal of count 2 on entity `my_metric` with
`absent_signals = "ignore"`): the gauge stored under the `item.coal` key
has count equal to the matching-signal sum. -/
theorem claim1_witness :
    (Gauge.mk "my_metric" 2
        [⟨"base", some "alpha"⟩, ⟨"planet", some "nauvis"⟩, ⟨"ores", none⟩,
         ⟨"signal_type", some "item"⟩, ⟨"signal_name", some "coal"⟩]).n =
      (((([⟨⟨"item", "coal"⟩, 2⟩] : List CircuitSignal) ++ ([] : List CircuitSignal)).filter
          fun c2 => decide (c2.signal = Signal.mk "item" "coal")).map CircuitSignal.count).sum :=
  (((claim1_one_gauge_per_triple ⟨["signal-A"], ["coal"], ["water"]⟩
        ⟨[⟨⟨"my_metric", "base=alpha,planet=nauvis,ores", "ignore"⟩,
            [⟨⟨"item", "coal"⟩, 2⟩], []⟩]⟩
        (by decide) (by decide) (by decide)).2
      ⟨⟨"my_metric", "base=alpha,planet=nauvis,ores", "ignore"⟩,
        [⟨⟨"item", "coal"⟩, 2⟩], []⟩ (by decide)).2.2
    ⟨⟨"item", "coal"⟩, 2⟩ (by decide)
    ⟨"my_metric", 2,
      [⟨"base", some "alpha"⟩, ⟨"planet", some "nauvis"⟩, ⟨"ores", none⟩,
       ⟨"signal_type", some "item"⟩, ⟨"signal_name", some "coal"⟩]⟩ (by decide)).2.1
